import Mathlib

/-!
Shallow embedding of `src/hw11.py`: inverse-transform and rejection
(filtration) sampling for a flat-topped Laplace distribution.  Python
floating-point arithmetic is modelled as exact real arithmetic; the
implicit uniform random source is modelled as an explicit stream of
draws in the loop model.
-/

namespace HW11

/-- Normalizing constant `c = 1 / (2*exp(-a) + 2*a)`, computed locally in
several methods of `hw11.py`. -/
noncomputable def c (a : ℝ) : ℝ := 1 / (2 * Real.exp (-a) + 2 * a)

/-- Embedding of `TaskDistribution.cdf` (src/hw11.py lines 21-29). -/
noncomputable def TaskDistribution.cdf (a x : ℝ) : ℝ :=
  if x < -a then c a * Real.exp x
  else if x < a then c a * (Real.exp (-a) + x + a)
  else c a * (2 * Real.exp (-a) + 2 * a - Real.exp (-x))

/-- Embedding of `TaskInverseMethod.inverse_cdf` (src/hw11.py lines 46-54).
Python raises a domain error on `math.log` of a non-positive argument;
here `Real.log` is total, and `TaskInverseMethod.logDomainError` tracks the
error condition separately. -/
noncomputable def TaskInverseMethod.inverse_cdf (a y : ℝ) : ℝ :=
  if y < c a * Real.exp (-a) then Real.log (y / c a)
  else if 1 - y < c a * Real.exp (-a) then -Real.log ((1 - y) / c a)
  else y / c a - Real.exp (-a) - a

/-- The condition under which `TaskInverseMethod.inverse_cdf` evaluates
`math.log` on a non-positive argument, which raises a domain error in
Python (`math.log` requires a strictly positive argument). -/
noncomputable def TaskInverseMethod.logDomainError (a y : ℝ) : Prop :=
  if y < c a * Real.exp (-a) then y / c a ≤ 0
  else if 1 - y < c a * Real.exp (-a) then (1 - y) / c a ≤ 0
  else False

/-- Embedding of `QDistribution.cdf` (src/hw11.py lines 58-62). -/
noncomputable def QDistribution.cdf (x : ℝ) : ℝ :=
  if x < 0 then 0.5 * Real.exp x
  else 0.5 * (2 - Real.exp (-x))

/-- Embedding of `QDistribution.f` (src/hw11.py lines 64-65), the proposal
density. -/
noncomputable def QDistribution.f (x : ℝ) : ℝ := 0.5 * Real.exp (-|x|)

/-- Embedding of `QInverseMethod.inverse_cdf` (src/hw11.py lines 69-73). -/
noncomputable def QInverseMethod.inverse_cdf (y : ℝ) : ℝ :=
  if y < 0.5 then Real.log (2 * y)
  else -Real.log (2 - 2 * y)

/-- The condition under which `QInverseMethod.inverse_cdf` evaluates
`math.log` on a non-positive argument. -/
noncomputable def QInverseMethod.logDomainError (y : ℝ) : Prop :=
  if y < 0.5 then 2 * y ≤ 0
  else 2 - 2 * y ≤ 0

/-- Embedding of `TaskFiltrationMethod.f` (src/hw11.py lines 116-122), the
target density. -/
noncomputable def TaskFiltrationMethod.f (a x : ℝ) : ℝ :=
  if |x| > a then c a * Real.exp (-|x|)
  else c a

/-- Embedding of `TaskFiltrationMethod.M` (src/hw11.py lines 124-127). -/
noncomputable def TaskFiltrationMethod.M (a : ℝ) : ℝ :=
  max (c a / 0.5) (2 / c a)

/-- Embedding of `FiltrationMethod.r` (src/hw11.py lines 89-90),
instantiated at `TaskFiltrationMethod`: the density ratio
`f(x) / QDist().f(x)`. -/
noncomputable def FiltrationMethod.r (a x : ℝ) : ℝ :=
  TaskFiltrationMethod.f a x / QDistribution.f x

/-- One iteration of the rejection loop in `FiltrationMethod.__call__`
(src/hw11.py lines 96-103), instantiated at `TaskFiltrationMethod`: given
the two uniform draws of the iteration (the draw `v` consumed by
`Q()` and the acceptance draw `u`), the proposal
`eta = QInverseMethod.inverse_cdf v` is returned iff `r eta > M * u`. -/
noncomputable def FiltrationMethod.step (a v u : ℝ) : Option ℝ :=
  if FiltrationMethod.r a (QInverseMethod.inverse_cdf v) >
      TaskFiltrationMethod.M a * u then
    some (QInverseMethod.inverse_cdf v)
  else none

/-- The `while True` loop of `FiltrationMethod.__call__`, run against an
explicit stream of draw pairs with fuel `n` (the Python loop is unbounded;
`none` means no acceptance within the first `n` iterations). -/
noncomputable def FiltrationMethod.run (a : ℝ) (draws : ℕ → ℝ × ℝ) :
    ℕ → Option ℝ
  | 0 => none
  | n + 1 =>
    match FiltrationMethod.step a (draws 0).1 (draws 0).2 with
    | some x => some x
    | none => FiltrationMethod.run a (fun k => draws (k + 1)) n

/-- Positivity of the normalizing constant for `a > 0`. -/
theorem c_pos {a : ℝ} (ha : 0 < a) : 0 < c a := by
  unfold c
  positivity

/-- The tail mass `c * exp(-a)` is strictly below `1/2` for `a > 0`. -/
theorem c_exp_lt_half {a : ℝ} (ha : 0 < a) : c a * Real.exp (-a) < 1 / 2 := by
  have hD : 0 < 2 * Real.exp (-a) + 2 * a := by positivity
  unfold c
  rw [div_mul_eq_mul_div, one_mul, div_lt_div_iff₀ hD (by norm_num)]
  nlinarith [Real.exp_pos (-a)]

/-- The normalizing identity `c * (2*exp(-a) + 2*a) = 1` for `a > 0`. -/
theorem c_mul_denom {a : ℝ} (ha : 0 < a) : c a * (2 * Real.exp (-a) + 2 * a) = 1 := by
  have hD : 0 < 2 * Real.exp (-a) + 2 * a := by positivity
  unfold c
  field_simp

/-- Positivity of the tail mass `c * exp(-a)` for `a > 0`. -/
theorem c_exp_pos {a : ℝ} (ha : 0 < a) : 0 < c a * Real.exp (-a) :=
  mul_pos (c_pos ha) (Real.exp_pos _)

/-- The piecewise CDF rewritten with weak inequalities picking the same
branch values (the junctions agree, so both forms are pointwise equal). -/
theorem task_cdf_as_if_le (a : ℝ) :
    TaskDistribution.cdf a = fun x =>
      if -a ≤ x then
        (if a ≤ x then c a * (2 * Real.exp (-a) + 2 * a - Real.exp (-x))
         else c a * (Real.exp (-a) + x + a))
      else c a * Real.exp x := by
  funext x
  unfold TaskDistribution.cdf
  rcases lt_or_le x (-a) with h1 | h1
  · rw [if_pos h1, if_neg (not_le.mpr h1)]
  · rw [if_neg (not_lt.mpr h1), if_pos h1]
    rcases lt_or_le x a with h2 | h2
    · rw [if_pos h2, if_neg (not_le.mpr h2)]
    · rw [if_neg (not_lt.mpr h2), if_pos h2]

/-- Continuity of the piecewise CDF. -/
theorem task_cdf_continuous {a : ℝ} (ha : 0 < a) : Continuous (TaskDistribution.cdf a) := by
  rw [task_cdf_as_if_le a]
  have h3 : Continuous fun x : ℝ =>
      c a * (2 * Real.exp (-a) + 2 * a - Real.exp (-x)) := by
    exact continuous_const.mul
      (continuous_const.sub (Real.continuous_exp.comp continuous_neg))
  have h2 : Continuous fun x : ℝ => c a * (Real.exp (-a) + x + a) := by
    exact continuous_const.mul ((continuous_const.add continuous_id).add continuous_const)
  have h1 : Continuous fun x : ℝ => c a * Real.exp x := by
    exact continuous_const.mul Real.continuous_exp
  have hin : Continuous fun x : ℝ =>
      if a ≤ x then c a * (2 * Real.exp (-a) + 2 * a - Real.exp (-x))
      else c a * (Real.exp (-a) + x + a) := by
    refine Continuous.if_le h3 h2 continuous_const continuous_id ?_
    intro x hx
    rw [← hx]
    ring
  refine Continuous.if_le hin h1 continuous_const continuous_id ?_
  intro x hx
  rw [← hx]
  rw [if_neg (by linarith : ¬ a ≤ -a)]
  ring

/-- C5: for every `a > 0` the three branch formulas of
`TaskDistribution.cdf` agree at the junction points: at `x = -a` the
lower-exponential branch equals the middle branch, at `x = a` the middle
branch equals the upper branch, and consequently the piecewise CDF is
continuous (at both breakpoints and everywhere else). -/
theorem task_cdf_junctions (a : ℝ) (ha : 0 < a) :
    c a * Real.exp (-a) = c a * (Real.exp (-a) + -a + a) ∧
    c a * (Real.exp (-a) + a + a) =
      c a * (2 * Real.exp (-a) + 2 * a - Real.exp (-a)) ∧
    Continuous (TaskDistribution.cdf a) :=
  ⟨by ring, by ring, task_cdf_continuous ha⟩

/-- Witness for C5 at the concrete parameter `a = 1`. -/
theorem task_cdf_junctions_witness :
    (0:ℝ) < 1 ∧
    (c 1 * Real.exp (-1) = c 1 * (Real.exp (-1) + -1 + 1) ∧
     c 1 * (Real.exp (-1) + 1 + 1) =
       c 1 * (2 * Real.exp (-1) + 2 * 1 - Real.exp (-1)) ∧
     Continuous (TaskDistribution.cdf 1)) :=
  ⟨one_pos, task_cdf_junctions 1 one_pos⟩

/-- C6: for every `a > 0` and `y ∈ [0,1)`, exactly one of the three branch
conditions of `TaskInverseMethod.inverse_cdf` holds, and the two tail
conditions are never simultaneously true because `2*c*exp(-a) < 1`. -/
theorem inverse_branch_partition (a : ℝ) (ha : 0 < a) (y : ℝ)
    (_hy0 : 0 ≤ y) (_hy1 : y < 1) :
    2 * (c a * Real.exp (-a)) < 1 ∧
    ¬(y < c a * Real.exp (-a) ∧ 1 - y < c a * Real.exp (-a)) ∧
    ((y < c a * Real.exp (-a) ∧ ¬ 1 - y < c a * Real.exp (-a)) ∨
     (¬ y < c a * Real.exp (-a) ∧ 1 - y < c a * Real.exp (-a)) ∨
     (¬ y < c a * Real.exp (-a) ∧ ¬ 1 - y < c a * Real.exp (-a))) := by
  have ht := c_exp_lt_half ha
  refine ⟨by linarith, fun h => by linarith [h.1, h.2], ?_⟩
  by_cases h1 : y < c a * Real.exp (-a)
  · exact Or.inl ⟨h1, fun h2 => by linarith⟩
  · by_cases h2 : 1 - y < c a * Real.exp (-a)
    · exact Or.inr (Or.inl ⟨h1, h2⟩)
    · exact Or.inr (Or.inr ⟨h1, h2⟩)

/-- Witness for C6 at `a = 1`, `y = 0`. -/
theorem inverse_branch_partition_witness :
    ((0:ℝ) < 1 ∧ (0:ℝ) ≤ 0 ∧ (0:ℝ) < 1) ∧
    (2 * (c 1 * Real.exp (-1)) < 1 ∧
     ¬((0:ℝ) < c 1 * Real.exp (-1) ∧ 1 - 0 < c 1 * Real.exp (-1)) ∧
     (((0:ℝ) < c 1 * Real.exp (-1) ∧ ¬ 1 - (0:ℝ) < c 1 * Real.exp (-1)) ∨
      (¬ (0:ℝ) < c 1 * Real.exp (-1) ∧ 1 - 0 < c 1 * Real.exp (-1)) ∨
      (¬ (0:ℝ) < c 1 * Real.exp (-1) ∧ ¬ 1 - (0:ℝ) < c 1 * Real.exp (-1)))) :=
  ⟨⟨one_pos, le_refl 0, one_pos⟩,
    inverse_branch_partition 1 one_pos 0 (le_refl 0) one_pos⟩

/-- C8: for `a > 0`, `TaskInverseMethod.inverse_cdf` hits a logarithm of a
non-positive number (a Python `math.log` domain error) exactly when `y`
lies outside the open interval `(0,1)`; the same holds for
`QInverseMethod.inverse_cdf`; in particular `y = 0`, admitted by the
spec's domain `[0,1)`, triggers `log 0` in the lower-exponential branch of
both methods. -/
theorem inverse_cdf_domain_error_iff (a : ℝ) (ha : 0 < a) (y : ℝ) :
    (TaskInverseMethod.logDomainError a y ↔ y ≤ 0 ∨ 1 ≤ y) ∧
    (QInverseMethod.logDomainError y ↔ y ≤ 0 ∨ 1 ≤ y) ∧
    TaskInverseMethod.logDomainError a 0 ∧ QInverseMethod.logDomainError 0 := by
  have hc := c_pos ha
  have ht := c_exp_pos ha
  have hhalf := c_exp_lt_half ha
  have htask : TaskInverseMethod.logDomainError a y ↔ y ≤ 0 ∨ 1 ≤ y := by
    unfold TaskInverseMethod.logDomainError
    split_ifs with h1 h2
    · constructor
      · intro h
        left
        by_contra hy
        push_neg at hy
        exact absurd h (not_le.mpr (div_pos hy hc))
      · rintro (h | h)
        · exact div_nonpos_of_nonpos_of_nonneg h hc.le
        · linarith
    · constructor
      · intro h
        right
        by_contra hy
        push_neg at hy
        exact absurd h (not_le.mpr (div_pos (by linarith) hc))
      · rintro (h | h)
        · linarith
        · exact div_nonpos_of_nonpos_of_nonneg (by linarith) hc.le
    · simp only [false_iff]
      push_neg
      constructor <;> linarith
  have hq : QInverseMethod.logDomainError y ↔ y ≤ 0 ∨ 1 ≤ y := by
    unfold QInverseMethod.logDomainError
    split_ifs with h1
    · constructor
      · intro h
        exact Or.inl (by linarith)
      · rintro (h | h) <;> [linarith; linarith]
    · constructor
      · intro h
        exact Or.inr (by linarith)
      · rintro (h | h)
        · norm_num at h1
          linarith
        · linarith
  refine ⟨htask, hq, ?_, ?_⟩
  · unfold TaskInverseMethod.logDomainError
    rw [if_pos ht]
    simp
  · unfold QInverseMethod.logDomainError
    rw [if_pos (by norm_num : (0:ℝ) < 0.5)]
    norm_num

/-- Witness for C8 at `a = 1`, `y = 0`. -/
theorem inverse_cdf_domain_error_iff_witness :
    (0:ℝ) < 1 ∧
    ((TaskInverseMethod.logDomainError 1 0 ↔ (0:ℝ) ≤ 0 ∨ (1:ℝ) ≤ 0) ∧
     (QInverseMethod.logDomainError 0 ↔ (0:ℝ) ≤ 0 ∨ (1:ℝ) ≤ 0) ∧
     TaskInverseMethod.logDomainError 1 0 ∧ QInverseMethod.logDomainError 0) :=
  ⟨one_pos, inverse_cdf_domain_error_iff 1 one_pos 0⟩

/-- C10: the proposal density `QDistribution.f` is strictly positive at
every real `x` (so `FiltrationMethod.r` never divides by zero), and for
`a > 0` the target density and the density ratio are strictly positive,
the envelope `M` is strictly positive, and the acceptance test succeeds at
the uniform draw `u = 0`, so every loop iteration has positive acceptance
probability. -/
theorem q_density_pos_ratio_total (a : ℝ) (ha : 0 < a) (x : ℝ) :
    0 < QDistribution.f x ∧ QDistribution.f x ≠ 0 ∧
    0 < TaskFiltrationMethod.f a x ∧ 0 < FiltrationMethod.r a x ∧
    0 < TaskFiltrationMethod.M a ∧
    FiltrationMethod.r a x > TaskFiltrationMethod.M a * 0 := by
  have hq : 0 < QDistribution.f x := by
    unfold QDistribution.f
    positivity
  have hf : 0 < TaskFiltrationMethod.f a x := by
    unfold TaskFiltrationMethod.f
    split_ifs
    · exact mul_pos (c_pos ha) (Real.exp_pos _)
    · exact c_pos ha
  have hr : 0 < FiltrationMethod.r a x := div_pos hf hq
  have hM : 0 < TaskFiltrationMethod.M a := by
    unfold TaskFiltrationMethod.M
    exact lt_max_of_lt_left (div_pos (c_pos ha) (by norm_num))
  exact ⟨hq, ne_of_gt hq, hf, hr, hM, by simpa using hr⟩

/-- Witness for C10 at `a = 1`, `x = 0`. -/
theorem q_density_pos_ratio_total_witness :
    (0:ℝ) < 1 ∧
    (0 < QDistribution.f 0 ∧ QDistribution.f 0 ≠ 0 ∧
     0 < TaskFiltrationMethod.f 1 0 ∧ 0 < FiltrationMethod.r 1 0 ∧
     0 < TaskFiltrationMethod.M 1 ∧
     FiltrationMethod.r 1 0 > TaskFiltrationMethod.M 1 * 0) :=
  ⟨one_pos, q_density_pos_ratio_total 1 one_pos 0⟩

/-- Strict positivity of the CDF at every real `x` for `a > 0`. -/
theorem task_cdf_pos {a : ℝ} (ha : 0 < a) (x : ℝ) :
    0 < TaskDistribution.cdf a x := by
  have hc := c_pos ha
  unfold TaskDistribution.cdf
  split_ifs with h1 h2
  · positivity
  · have hx : 0 ≤ x + a := by linarith
    nlinarith [Real.exp_pos (-a)]
  · have hee : Real.exp (-x) ≤ Real.exp (-a) :=
      Real.exp_le_exp.mpr (by linarith)
    nlinarith [Real.exp_pos (-a)]

/-- The CDF stays strictly below `1` at every real `x` for `a > 0`. -/
theorem task_cdf_lt_one {a : ℝ} (ha : 0 < a) (x : ℝ) :
    TaskDistribution.cdf a x < 1 := by
  have hc := c_pos ha
  have hK := c_mul_denom ha
  unfold TaskDistribution.cdf
  split_ifs with h1 h2
  · have hh := c_exp_lt_half ha
    have hexp : Real.exp x < Real.exp (-a) := Real.exp_lt_exp.mpr h1
    nlinarith
  · have h3 : 0 < c a * (Real.exp (-a) + a - x) :=
      mul_pos hc (by linarith [Real.exp_pos (-a)])
    nlinarith
  · have h3 : 0 < c a * Real.exp (-x) := mul_pos hc (Real.exp_pos _)
    nlinarith

/-- Monotonicity of the piecewise CDF for `a > 0`. -/
theorem task_cdf_mono {a : ℝ} (ha : 0 < a) :
    Monotone (TaskDistribution.cdf a) := by
  intro x y hxy
  have hc := c_pos ha
  unfold TaskDistribution.cdf
  rcases lt_or_le x (-a) with hx1 | hx1
  · rw [if_pos hx1]
    rcases lt_or_le y (-a) with hy1 | hy1
    · rw [if_pos hy1]
      exact mul_le_mul_of_nonneg_left (Real.exp_le_exp.mpr hxy) hc.le
    · rw [if_neg (not_lt.mpr hy1)]
      have hex : Real.exp x ≤ Real.exp (-a) := Real.exp_le_exp.mpr hx1.le
      rcases lt_or_le y a with hy2 | hy2
      · rw [if_pos hy2]
        have hya : 0 ≤ y + a := by linarith
        nlinarith [mul_nonneg hc.le (sub_nonneg.mpr hex), mul_nonneg hc.le hya]
      · rw [if_neg (not_lt.mpr hy2)]
        have hey : Real.exp (-y) ≤ Real.exp (-a) :=
          Real.exp_le_exp.mpr (by linarith)
        nlinarith [mul_nonneg hc.le (sub_nonneg.mpr hex),
          mul_nonneg hc.le (sub_nonneg.mpr hey),
          mul_nonneg hc.le (by linarith : (0:ℝ) ≤ 2 * a)]
  · rw [if_neg (not_lt.mpr hx1)]
    have hy1 : ¬ y < -a := not_lt.mpr (by linarith)
    rw [if_neg hy1]
    rcases lt_or_le x a with hx2 | hx2
    · rw [if_pos hx2]
      rcases lt_or_le y a with hy2 | hy2
      · rw [if_pos hy2]
        exact mul_le_mul_of_nonneg_left (by linarith) hc.le
      · rw [if_neg (not_lt.mpr hy2)]
        have hey : Real.exp (-y) ≤ Real.exp (-a) :=
          Real.exp_le_exp.mpr (by linarith)
        nlinarith [mul_nonneg hc.le (sub_nonneg.mpr hey),
          mul_nonneg hc.le (by linarith : (0:ℝ) ≤ a - x)]
    · rw [if_neg (not_lt.mpr hx2), if_neg (not_lt.mpr (by linarith : a ≤ y))]
      have hey : Real.exp (-y) ≤ Real.exp (-x) :=
        Real.exp_le_exp.mpr (by linarith)
      exact mul_le_mul_of_nonneg_left (by linarith) hc.le

/-- The CDF tends to `0` at `-∞`. -/
theorem task_cdf_tendsto_atBot {a : ℝ} (_ha : 0 < a) :
    Filter.Tendsto (TaskDistribution.cdf a) Filter.atBot (nhds 0) := by
  have h1 : Filter.Tendsto (fun x : ℝ => c a * Real.exp x)
      Filter.atBot (nhds 0) := by
    simpa using Real.tendsto_exp_atBot.const_mul (c a)
  refine Filter.Tendsto.congr' ?_ h1
  filter_upwards [Filter.eventually_lt_atBot (-a)] with x hx
  simp only [TaskDistribution.cdf]
  rw [if_pos hx]

/-- The CDF tends to `1` at `+∞`. -/
theorem task_cdf_tendsto_atTop {a : ℝ} (ha : 0 < a) :
    Filter.Tendsto (TaskDistribution.cdf a) Filter.atTop (nhds 1) := by
  have h0 : Filter.Tendsto
      (fun x : ℝ => c a * (2 * Real.exp (-a) + 2 * a - Real.exp (-x)))
      Filter.atTop (nhds (c a * (2 * Real.exp (-a) + 2 * a - 0))) :=
    Filter.Tendsto.const_mul _
      (tendsto_const_nhds.sub Real.tendsto_exp_neg_atTop_nhds_zero)
  rw [sub_zero, c_mul_denom ha] at h0
  refine Filter.Tendsto.congr' ?_ h0
  filter_upwards [Filter.eventually_ge_atTop a] with x hx
  simp only [TaskDistribution.cdf]
  rw [if_neg (not_lt.mpr (by linarith)), if_neg (not_lt.mpr hx)]

/-- C4: for every `a > 0` the CDF of `TaskDistribution` is total over the
reals (it is a Lean function on all of `ℝ`), monotone non-decreasing, and
its value lies in `[0,1]` at every real `x`. -/
theorem task_cdf_monotone_bounded (a : ℝ) (ha : 0 < a) (x y : ℝ)
    (hxy : x ≤ y) :
    TaskDistribution.cdf a x ≤ TaskDistribution.cdf a y ∧
    0 ≤ TaskDistribution.cdf a x ∧ TaskDistribution.cdf a x ≤ 1 :=
  ⟨task_cdf_mono ha hxy, (task_cdf_pos ha x).le, (task_cdf_lt_one ha x).le⟩

/-- Witness for C4 at `a = 1`, `x = 0`, `y = 1`. -/
theorem task_cdf_monotone_bounded_witness :
    ((0:ℝ) < 1 ∧ (0:ℝ) ≤ 1) ∧
    (TaskDistribution.cdf 1 0 ≤ TaskDistribution.cdf 1 1 ∧
     0 ≤ TaskDistribution.cdf 1 0 ∧ TaskDistribution.cdf 1 0 ≤ 1) :=
  ⟨⟨one_pos, zero_le_one⟩, task_cdf_monotone_bounded 1 one_pos 0 1 zero_le_one⟩

/-- C9: for every `a > 0` and every finite real `x` the CDF lies strictly
between `0` and `1`, and the values `0` and `1` are attained only in the
limits `x → -∞` and `x → +∞`. -/
theorem task_cdf_strictly_between (a : ℝ) (ha : 0 < a) (x : ℝ) :
    0 < TaskDistribution.cdf a x ∧ TaskDistribution.cdf a x < 1 ∧
    Filter.Tendsto (TaskDistribution.cdf a) Filter.atBot (nhds 0) ∧
    Filter.Tendsto (TaskDistribution.cdf a) Filter.atTop (nhds 1) :=
  ⟨task_cdf_pos ha x, task_cdf_lt_one ha x,
    task_cdf_tendsto_atBot ha, task_cdf_tendsto_atTop ha⟩

/-- Round trip of the task pair on the open interval `(0,1)`: applying the
forward CDF to the inverse CDF returns `y` exactly. -/
theorem task_roundtrip {a : ℝ} (ha : 0 < a) {y : ℝ} (hy0 : 0 < y)
    (hy1 : y < 1) :
    TaskDistribution.cdf a (TaskInverseMethod.inverse_cdf a y) = y := by
  have hc := c_pos ha
  have hK := c_mul_denom ha
  unfold TaskInverseMethod.inverse_cdf
  split_ifs with h1 h2
  · have hyc : 0 < y / c a := div_pos hy0 hc
    have hlt : Real.log (y / c a) < -a := by
      rw [Real.log_lt_iff_lt_exp hyc, div_lt_iff₀ hc]
      nlinarith
    unfold TaskDistribution.cdf
    rw [if_pos hlt, Real.exp_log hyc]
    field_simp
  · have h1y : 0 < 1 - y := by linarith
    have hyc : 0 < (1 - y) / c a := div_pos h1y hc
    have hlog : Real.log ((1 - y) / c a) < -a := by
      rw [Real.log_lt_iff_lt_exp hyc, div_lt_iff₀ hc]
      nlinarith
    have hxa : a < -Real.log ((1 - y) / c a) := by linarith
    unfold TaskDistribution.cdf
    rw [if_neg (not_lt.mpr (by linarith : -a ≤ -Real.log ((1 - y) / c a))),
      if_neg (not_lt.mpr hxa.le), neg_neg, Real.exp_log hyc, mul_sub, hK]
    have hcan : c a * ((1 - y) / c a) = 1 - y := by
      field_simp
    rw [hcan]
    ring
  · push_neg at h1 h2
    set x := y / c a - Real.exp (-a) - a with hx
    have hdiv : Real.exp (-a) ≤ y / c a := by
      rw [le_div_iff₀ hc]
      nlinarith
    have hxlo : -a ≤ x := by
      rw [hx]
      linarith
    have hyle : y ≤ c a * (Real.exp (-a) + 2 * a) := by nlinarith
    have hdivhi : y / c a ≤ Real.exp (-a) + 2 * a := by
      rw [div_le_iff₀ hc]
      nlinarith
    have hxhi : x ≤ a := by
      rw [hx]
      linarith
    unfold TaskDistribution.cdf
    rw [if_neg (not_lt.mpr hxlo)]
    rcases lt_or_le x a with hxa | hxa
    · rw [if_pos hxa, hx]
      field_simp
      ring
    · have hxeq : x = a := le_antisymm hxhi hxa
      rw [if_neg (not_lt.mpr hxa), hxeq]
      have hyeq : y = c a * (Real.exp (-a) + 2 * a) := by
        rw [hx] at hxeq
        have hyc2 : y / c a = Real.exp (-a) + 2 * a := by linarith
        rw [← hyc2]
        field_simp
      rw [hyeq]
      ring

/-- Round trip of the proposal pair on the open interval `(0,1)`. -/
theorem q_roundtrip {y : ℝ} (hy0 : 0 < y) (hy1 : y < 1) :
    QDistribution.cdf (QInverseMethod.inverse_cdf y) = y := by
  unfold QInverseMethod.inverse_cdf
  split_ifs with h1
  · have h2y : 0 < 2 * y := by linarith
    have h2y1 : 2 * y < 1 := by
      norm_num at h1
      linarith
    have hlt : Real.log (2 * y) < 0 := Real.log_neg h2y h2y1
    unfold QDistribution.cdf
    rw [if_pos hlt, Real.exp_log h2y]
    ring
  · have h2y : 0 < 2 - 2 * y := by linarith
    have h2y1 : 2 - 2 * y ≤ 1 := by
      norm_num at h1
      linarith
    have hle : 0 ≤ -Real.log (2 - 2 * y) := by
      have := Real.log_nonpos (by linarith) h2y1
      linarith
    unfold QDistribution.cdf
    rw [if_neg (not_lt.mpr hle), neg_neg, Real.exp_log h2y]
    ring

/-- Counterexample to C2 as stated: at `y = 0`, which is in the claimed
domain `[0,1)`, the round trip fails for the task pair (the Python code
actually raises a `math.log` domain error there; in the total real model
`log 0 = 0` and the round trip value is nonzero). Shown at `a = 1`. -/
theorem task_roundtrip_fails_at_zero :
    TaskDistribution.cdf 1 (TaskInverseMethod.inverse_cdf 1 0) ≠ 0 := by
  have hc : 0 < c 1 := c_pos one_pos
  have hinv : TaskInverseMethod.inverse_cdf 1 0 = 0 := by
    unfold TaskInverseMethod.inverse_cdf
    rw [if_pos (c_exp_pos one_pos)]
    simp
  rw [hinv]
  unfold TaskDistribution.cdf
  rw [if_neg (by norm_num : ¬ (0:ℝ) < -1), if_pos (by norm_num : (0:ℝ) < 1)]
  exact ne_of_gt (mul_pos hc (by positivity))

/-- C2 (amended): for every `a > 0` and every `y` in the OPEN interval
`(0,1)`, `TaskDistribution(a).cdf (TaskInverseMethod(a).inverse_cdf y) = y`
exactly, and likewise `QDistribution.cdf (QInverseMethod.inverse_cdf y) = y`;
the endpoint `y = 0` of the claimed domain `[0,1)` must be excluded. -/
theorem inverse_roundtrip_open (a : ℝ) (ha : 0 < a) (y : ℝ) (hy0 : 0 < y)
    (hy1 : y < 1) :
    TaskDistribution.cdf a (TaskInverseMethod.inverse_cdf a y) = y ∧
    QDistribution.cdf (QInverseMethod.inverse_cdf y) = y :=
  ⟨task_roundtrip ha hy0 hy1, q_roundtrip hy0 hy1⟩

/-- Witness for the amended C2 at `a = 1`, `y = 1/2`. -/
theorem inverse_roundtrip_open_witness :
    ((0:ℝ) < 1 ∧ (0:ℝ) < 1/2 ∧ (1:ℝ)/2 < 1) ∧
    (TaskDistribution.cdf 1 (TaskInverseMethod.inverse_cdf 1 (1/2)) = 1/2 ∧
     QDistribution.cdf (QInverseMethod.inverse_cdf (1/2)) = 1/2) :=
  ⟨⟨one_pos, by norm_num, by norm_num⟩,
    inverse_roundtrip_open 1 one_pos (1/2) (by norm_num) (by norm_num)⟩

/-- Witness for C9 at `a = 1`, `x = 0`. -/
theorem task_cdf_strictly_between_witness :
    (0:ℝ) < 1 ∧
    (0 < TaskDistribution.cdf 1 0 ∧ TaskDistribution.cdf 1 0 < 1 ∧
     Filter.Tendsto (TaskDistribution.cdf 1) Filter.atBot (nhds 0) ∧
     Filter.Tendsto (TaskDistribution.cdf 1) Filter.atTop (nhds 1)) :=
  ⟨one_pos, task_cdf_strictly_between 1 one_pos 0⟩

/-- The proposal sampler maps the draw `1/2` to the origin. -/
theorem q_inverse_half : QInverseMethod.inverse_cdf (1/2) = 0 := by
  unfold QInverseMethod.inverse_cdf
  rw [if_neg (by norm_num)]
  norm_num

/-- The density ratio at the origin equals `2*c` for `a > 0`. -/
theorem r_at_zero {a : ℝ} (ha : 0 < a) : FiltrationMethod.r a 0 = 2 * c a := by
  unfold FiltrationMethod.r TaskFiltrationMethod.f QDistribution.f
  rw [if_neg (by simp only [abs_zero]; exact not_lt.mpr ha.le)]
  simp only [abs_zero, neg_zero, Real.exp_zero, mul_one]
  norm_num
  ring

/-- The denominator `2*exp(-a) + 2*a` is at least `2` for `a > 0`. -/
theorem denom_ge_two {a : ℝ} (_ha : 0 < a) :
    2 ≤ 2 * Real.exp (-a) + 2 * a := by
  nlinarith [Real.add_one_le_exp (-a)]

/-- The normalizing constant is at most `1/2` for `a > 0`. -/
theorem c_le_half {a : ℝ} (ha : 0 < a) : c a ≤ 1/2 := by
  unfold c
  rw [div_le_div_iff₀ (by positivity) (by norm_num)]
  nlinarith [denom_ge_two ha]

/-- The second envelope candidate `2/c` is at least `4` for `a > 0`. -/
theorem two_div_c_ge {a : ℝ} (ha : 0 < a) : 4 ≤ 2 / c a := by
  unfold c
  rw [div_div_eq_mul_div, div_one]
  nlinarith [denom_ge_two ha]

/-- The fixed draw pair `(1/2, 1/2)` is always rejected for `a > 0`. -/
theorem step_reject_half {a : ℝ} (ha : 0 < a) :
    FiltrationMethod.step a (1/2) (1/2) = none := by
  have hM : 4 ≤ TaskFiltrationMethod.M a :=
    le_trans (two_div_c_ge ha) (le_max_right _ _)
  have hc2 : 2 * c a ≤ 1 := by linarith [c_le_half ha]
  unfold FiltrationMethod.step
  rw [q_inverse_half, r_at_zero ha]
  exact if_neg (not_lt.mpr (by linarith))

/-- One-step unfolding of the rejection loop. -/
theorem run_succ (a : ℝ) (draws : ℕ → ℝ × ℝ) (n : ℕ) :
    FiltrationMethod.run a draws (n + 1) =
      if FiltrationMethod.r a (QInverseMethod.inverse_cdf (draws 0).1) >
          TaskFiltrationMethod.M a * (draws 0).2 then
        some (QInverseMethod.inverse_cdf (draws 0).1)
      else FiltrationMethod.run a (fun k => draws (k + 1)) n := by
  show (match FiltrationMethod.step a (draws 0).1 (draws 0).2 with
        | some x => some x
        | none => FiltrationMethod.run a (fun k => draws (k + 1)) n) = _
  unfold FiltrationMethod.step
  split_ifs with h
  · rfl
  · rfl

/-- Under the constantly rejecting draw stream `(1/2, 1/2)` the loop is
still running (result `none`) after any number of iterations. -/
theorem run_const_half_none {a : ℝ} (ha : 0 < a) (n : ℕ) :
    FiltrationMethod.run a (fun _ => (1/2, 1/2)) n = none := by
  induction n with
  | zero => rfl
  | succ n ih =>
    show (match FiltrationMethod.step a ((1:ℝ)/2) ((1:ℝ)/2) with
          | some x => some x
          | none => FiltrationMethod.run a (fun _ => (1/2, 1/2)) n) = none
    rw [step_reject_half ha]
    exact ih

/-- C3: each iteration of the rejection loop draws a proposal
`η = QInverseMethod.inverse_cdf v` from the first uniform draw `v` of the
iteration, then uses the second independent uniform draw `u`, returns `η`
exactly when strictly `r(η) > M·u`, and otherwise repeats with fresh
draws; the loop carries no iteration bound and no error path — with zero
fuel the result is simply `none`, and the constantly rejecting stream
`(1/2, 1/2)` keeps it running after any number of iterations for
every `a > 0`. -/
theorem filtration_loop_behavior (a : ℝ) (ha : 0 < a)
    (draws : ℕ → ℝ × ℝ) (n : ℕ) :
    (FiltrationMethod.run a draws (n + 1) =
      if FiltrationMethod.r a (QInverseMethod.inverse_cdf (draws 0).1) >
          TaskFiltrationMethod.M a * (draws 0).2 then
        some (QInverseMethod.inverse_cdf (draws 0).1)
      else FiltrationMethod.run a (fun k => draws (k + 1)) n) ∧
    FiltrationMethod.run a draws 0 = none ∧
    FiltrationMethod.run a (fun _ => (1/2, 1/2)) n = none :=
  ⟨run_succ a draws n, rfl, run_const_half_none ha n⟩

/-- Witness for C3 at `a = 1`, the constant draw stream `(1/2, 1/2)` and
one unit of fuel. -/
theorem filtration_loop_behavior_witness :
    (0:ℝ) < 1 ∧
    ((FiltrationMethod.run 1 (fun _ => (1/2, 1/2)) 2 =
       if FiltrationMethod.r 1 (QInverseMethod.inverse_cdf (1/2)) >
           TaskFiltrationMethod.M 1 * (1/2) then
         some (QInverseMethod.inverse_cdf (1/2))
       else FiltrationMethod.run 1 (fun _ => (1/2, 1/2)) 1) ∧
     FiltrationMethod.run 1 (fun _ => (1/2, 1/2)) 0 = none ∧
     FiltrationMethod.run 1 (fun _ => (1/2, 1/2)) 1 = none) :=
  ⟨one_pos, filtration_loop_behavior 1 one_pos (fun _ => (1/2, 1/2)) 1⟩

/-- Pointwise upper bound on the density ratio: for `a > 0` it never
exceeds `(c/0.5)·e^a` (value `2c` on the tails, `2c·e^{|x|}` on the
plateau). -/
theorem r_le_sup {a : ℝ} (ha : 0 < a) (x : ℝ) :
    FiltrationMethod.r a x ≤ c a / 0.5 * Real.exp a := by
  have hc := c_pos ha
  have hE : 0 < Real.exp (-|x|) := Real.exp_pos _
  have hea : 1 ≤ Real.exp a := Real.one_le_exp ha.le
  unfold FiltrationMethod.r TaskFiltrationMethod.f QDistribution.f
  split_ifs with h
  · rw [mul_div_mul_right _ _ (ne_of_gt hE)]
    nlinarith [div_pos hc (show (0:ℝ) < 0.5 by norm_num)]
  · push_neg at h
    have hE1 : Real.exp (-a) ≤ Real.exp (-|x|) :=
      Real.exp_le_exp.mpr (by linarith)
    have hprod : Real.exp a * Real.exp (-a) = 1 := by
      rw [← Real.exp_add]
      simp
    have hEA : 1 ≤ Real.exp a * Real.exp (-|x|) := by
      nlinarith [mul_le_mul_of_nonneg_left hE1 (Real.exp_pos a).le]
    rw [div_le_iff₀ (by positivity)]
    have hhalf : c a / (0.5:ℝ) = 2 * c a := by
      norm_num
      ring
    rw [hhalf]
    nlinarith [mul_nonneg hc.le (sub_nonneg.mpr hEA)]

/-- The density ratio attains the bound `(c/0.5)·e^a` at `x = a`. -/
theorem r_at_a {a : ℝ} (ha : 0 < a) :
    FiltrationMethod.r a a = c a / 0.5 * Real.exp a := by
  unfold FiltrationMethod.r TaskFiltrationMethod.f QDistribution.f
  rw [abs_of_pos ha, if_neg (lt_irrefl a), Real.exp_neg]
  rw [div_eq_iff (by positivity : (0.5:ℝ) * (Real.exp a)⁻¹ ≠ 0)]
  field_simp

/-- Counterexample to C1 as stated: at `a = 10` the density ratio at
`x = 10` strictly exceeds the envelope `M`, so `M` is neither the
pointwise maximum of the ratio nor even an upper bound for it. -/
theorem M_below_ratio_at_ten :
    TaskFiltrationMethod.M 10 < FiltrationMethod.r 10 10 := by
  have hE : (0:ℝ) < Real.exp (-10) := Real.exp_pos _
  have hE1 : Real.exp (-10) < 1 := Real.exp_lt_one_iff.mpr (by norm_num)
  have hprod : Real.exp (-10) * Real.exp 10 = 1 := by
    rw [← Real.exp_add]
    norm_num
  have h2e : (2:ℝ) < Real.exp 1 := by
    linarith [Real.exp_one_gt_d9]
  have h1024 : (1024:ℝ) < Real.exp 10 := by
    calc (1024:ℝ) = 2^10 := by norm_num
    _ < Real.exp 1 ^ 10 := by
        exact pow_lt_pow_left₀ h2e (by norm_num) (by norm_num)
    _ = Real.exp 10 := by
        rw [← Real.exp_nat_mul]
        norm_num
  have hr : FiltrationMethod.r 10 10 = c 10 / (0.5 * Real.exp (-10)) := by
    unfold FiltrationMethod.r TaskFiltrationMethod.f QDistribution.f
    rw [show |(10:ℝ)| = 10 by norm_num, if_neg (lt_irrefl (10:ℝ))]
  have hc : c 10 = 1 / (2 * Real.exp (-10) + 2 * 10) := rfl
  have hD : (0:ℝ) < 2 * Real.exp (-10) + 2 * 10 := by positivity
  have hDlt : 2 * Real.exp (-10) + 2 * 10 < 22 := by nlinarith
  have hElt : Real.exp (-10) < 1 / 1024 := by
    nlinarith [mul_lt_mul_of_pos_right h1024 hE]
  rw [hr, hc]
  unfold TaskFiltrationMethod.M
  rw [hc]
  apply max_lt
  · apply div_lt_div_of_pos_left (by positivity) (by positivity)
    nlinarith
  · rw [div_div_eq_mul_div, div_one, div_div, lt_div_iff₀ (by positivity)]
    have hD2 : (2 * Real.exp (-10) + 2 * 10)^2 < 484 := by nlinarith
    have hkey : (2 * Real.exp (-10) + 2 * 10)^2 * Real.exp (-10) < 1 := by
      nlinarith [mul_lt_mul_of_pos_right hD2 hE,
        mul_lt_mul_of_pos_left hElt (show (0:ℝ) < 484 by norm_num)]
    nlinarith [hkey]

/-- C1 (corrected): for every `a > 0` the pointwise maximum over `x` of
the density ratio `r(x) = f(x)/q(x)` is `(c/0.5)·e^a`, attained at
`x = a`; the code's envelope `M = max(c/0.5, 2/c)` is a distinct quantity
that can even fall below the ratio (see the counterexample at `a = 10`). -/
theorem ratio_pointwise_max (a : ℝ) (ha : 0 < a) (x : ℝ) :
    FiltrationMethod.r a x ≤ c a / 0.5 * Real.exp a ∧
    FiltrationMethod.r a a = c a / 0.5 * Real.exp a :=
  ⟨r_le_sup ha x, r_at_a ha⟩

/-- Witness for the corrected C1 at `a = 1`, `x = 0`. -/
theorem ratio_pointwise_max_witness :
    (0:ℝ) < 1 ∧
    (FiltrationMethod.r 1 0 ≤ c 1 / 0.5 * Real.exp 1 ∧
     FiltrationMethod.r 1 1 = c 1 / 0.5 * Real.exp 1) :=
  ⟨one_pos, ratio_pointwise_max 1 one_pos 0⟩

/-- For `a = 1/2` the pointwise bound `(c/0.5)·e^{1/2}` is below the
envelope candidate `2/c`. -/
theorem sup_le_M_at_half :
    c (1/2) / 0.5 * Real.exp (1/2) ≤ 2 / c (1/2) := by
  have hE : (0:ℝ) < Real.exp (-(1/2 : ℝ)) := Real.exp_pos _
  have hEhalf : (1/2 : ℝ) ≤ Real.exp (-(1/2 : ℝ)) := by
    nlinarith [Real.add_one_le_exp (-(1/2 : ℝ))]
  have hprod : Real.exp (-(1/2 : ℝ)) * Real.exp (1/2) = 1 := by
    rw [← Real.exp_add]
    norm_num
  have hcube : 1 ≤ 4 * Real.exp (-(1/2 : ℝ))^3 + 4 * Real.exp (-(1/2 : ℝ))^2
      + Real.exp (-(1/2 : ℝ)) := by
    nlinarith [sq_nonneg (Real.exp (-(1/2 : ℝ)) - 1/2),
      mul_pos (mul_pos hE hE) hE]
  have hc : c (1/2) = 1 / (2 * Real.exp (-(1/2 : ℝ)) + 2 * (1/2)) := rfl
  have hD : (0:ℝ) < 2 * Real.exp (-(1/2 : ℝ)) + 2 * (1/2) := by positivity
  rw [hc, div_div_eq_mul_div, div_one, div_div, one_div_mul_eq_div,
    div_le_iff₀ (by positivity)]
  nlinarith [hprod, hE, mul_pos hE hE,
    mul_le_mul_of_nonneg_right hcube (Real.exp_pos (1/2 : ℝ)).le]

/-- C7: for `a = 0.5` the density ratio is bounded by the envelope on the
whole grid interval: `r(x) ≤ M` for every `x ∈ [-10, 10]`. -/
theorem ratio_bounded_at_half (x : ℝ) (_hx1 : -10 ≤ x) (_hx2 : x ≤ 10) :
    FiltrationMethod.r (1/2) x ≤ TaskFiltrationMethod.M (1/2) :=
  le_trans (r_le_sup (by norm_num) x)
    (le_trans sup_le_M_at_half (le_max_right _ _))

/-- Witness for C7 at `x = 0`. -/
theorem ratio_bounded_at_half_witness :
    ((-10:ℝ) ≤ 0 ∧ (0:ℝ) ≤ 10) ∧
    FiltrationMethod.r (1/2) 0 ≤ TaskFiltrationMethod.M (1/2) :=
  ⟨⟨by norm_num, by norm_num⟩,
    ratio_bounded_at_half 0 (by norm_num) (by norm_num)⟩

end HW11
